import Mathlib

/-!
Verification development for `jangler/palettize` (`palettize.go`, latest
revision in the repository).

The program reads a source ("value") image and a palette image, extracts a
brightness-sorted color list from each (`getPalette`), and remaps every pixel
of the source image through the ratio of the two palette lengths, writing the
result.  Below, the pure algorithmic content of `palettize.go` is shallowly
embedded:

* `Color` models the 16-bit-per-channel RGBA quadruple returned by Go's
  `color.Color.RGBA()`; equality is exact component-wise equality.
* `brightness`, `transparent`, `indexOf`, `getPalette` are direct
  translations of the functions of the same names.
* The call `sort.Sort(ByBrightness(palette))` delegates to the Go standard
  library, whose code is not part of this repository.  It is modelled twice:
  `sortSort` realizes the documented contract of `sort.Sort` (the result is a
  permutation of the input ordered by `ByBrightness.Less`; Go documents the
  sort as NOT guaranteed to be stable) by insertion sort, and
  `goSortSort` is a faithful transcription of the actual `sort.Sort`
  implementation shipped in Go releases 1.9 through 1.18 (introsort with a
  ShellSort pass and insertion sort below 12 elements).
* `remapPixel` / `remapAt` / `remapImage` model the pixel loop of `main`,
  including the `image.NewRGBA(image.Rect(0, 0, b.Dx(), b.Dy()))` output
  allocation, Go's silent dropping of out-of-bounds `Set` calls, and the
  out-of-range slice access `newPalette[...]` (modelled as `none`, i.e. a
  runtime panic).
* Go `float64` arithmetic (`ratio := float64(len(newPalette)) /
  float64(len(oldPalette))`, `float64(index) * ratio`, truncation by
  `int(...)`) is modelled over `ℚ` with `flq`, an IEEE-754 round-to-nearest,
  ties-to-even rounding to a 53-bit significand.  Overflow and subnormal
  ranges are not modelled (all quantities of interest are far inside the
  normal range); `ℚ` division by zero yields `0` where Go would produce a
  non-finite value — in the one reachable case (empty old palette) the ratio
  is never consumed, so the difference is unobservable.
-/

/-- A color as observed through Go's `color.Color.RGBA()`: alpha-premultiplied
red, green, blue, alpha components, each a 16-bit value (0–65535).  Go's `==`
on the color interface is modelled by component-wise equality. -/
structure Color where
  r : ℕ
  g : ℕ
  b : ℕ
  a : ℕ
deriving DecidableEq

/-- The zero value of Go's `color.RGBA` — the content of a freshly allocated
`image.RGBA` pixel, and the value `At` yields outside an image's bounds. -/
def zeroColor : Color := ⟨0, 0, 0, 0⟩

/-- `brightness` from palettize.go: `r + g + b` of the `RGBA()` components,
computed in a `uint32` (hence the reduction modulo `2^32`). -/
def brightness (c : Color) : ℕ := (c.r + c.g + c.b) % 2 ^ 32

/-- `transparent` from palettize.go: true iff the `RGBA()` alpha is zero. -/
def transparent (c : Color) : Bool := c.a == 0

/-- `ByBrightness.Less` from palettize.go, as a Boolean relation on colors:
`brightness(a[i]) < brightness(a[j])` (a `uint32` comparison). -/
def lessBB (c d : Color) : Bool := brightness c < brightness d

/-- The non-strict companion of `ByBrightness.Less`: the ordering in which a
palette sorted by `sort.Sort(ByBrightness ...)` ends up. -/
def brightLE (c d : Color) : Prop := brightness c ≤ brightness d

instance : DecidableRel brightLE := fun c d => by
  unfold brightLE; infer_instance

instance : IsTotal Color brightLE :=
  ⟨fun c d => Nat.le_total (brightness c) (brightness d)⟩

instance : IsTrans Color brightLE :=
  ⟨fun _ _ _ h h' => Nat.le_trans h h'⟩

/-- Contract model of the standard-library call
`sort.Sort(ByBrightness(palette))`: `sort.Sort` guarantees that the result is
a permutation of the input that is sorted according to `Less` (ascending
`brightness`), and guarantees nothing else — in particular it is documented as
not stable.  The contract is realized here by insertion sort.  (For inputs of
at most six elements this coincides exactly with what Go's `sort.Sort`
executes, since its small-range code path degenerates to insertion sort.) -/
def sortSort (l : List Color) : List Color := l.insertionSort brightLE

/-- An image rectangle, Go's `image.Rectangle`: min (inclusive) and max
(exclusive) integer coordinates. -/
structure Rect where
  minX : ℤ
  minY : ℤ
  maxX : ℤ
  maxY : ℤ
deriving DecidableEq

/-- `image.Rect(x0, y0, x1, y1)`: canonicalizes by swapping coordinates so
that min ≤ max, exactly as the Go constructor does. -/
def mkRect (x0 y0 x1 y1 : ℤ) : Rect :=
  ⟨if x0 > x1 then x1 else x0, if y0 > y1 then y1 else y0,
    if x0 > x1 then x0 else x1, if y0 > y1 then y0 else y1⟩

/-- `Rectangle.Dx()`. -/
def Rect.Dx (r : Rect) : ℤ := r.maxX - r.minX

/-- `Rectangle.Dy()`. -/
def Rect.Dy (r : Rect) : ℤ := r.maxY - r.minY

/-- Membership of a point in a rectangle (Go's `Point.In`). -/
def inRect (r : Rect) (x y : ℤ) : Prop :=
  r.minX ≤ x ∧ x < r.maxX ∧ r.minY ≤ y ∧ y < r.maxY

instance (r : Rect) (x y : ℤ) : Decidable (inRect r x y) := by
  unfold inRect; infer_instance

/-- An image as the core reads it: bounds plus the color returned by `At` at
each coordinate (Go's `image.Image` interface). -/
structure Image where
  bounds : Rect
  At : ℤ → ℤ → Color

/-- The integers from `lo` (inclusive) to `hi` (exclusive), in order. -/
def rangeZ (lo hi : ℤ) : List ℤ :=
  (List.range (hi - lo).toNat).map fun k : ℕ => lo + (k : ℤ)

/-- The pixel coordinates visited by the nested loops
`for x := b.Min.X; x < b.Max.X; x++ { for y := b.Min.Y; y < b.Max.Y; y++`
of `getPalette` and `main`, in visit order (column-major: x outer, y inner).
-/
def pixelSeq (img : Image) : List (ℤ × ℤ) :=
  (rangeZ img.bounds.minX img.bounds.maxX).flatMap fun x =>
    (rangeZ img.bounds.minY img.bounds.maxY).map fun y => (x, y)

/-- The color list accumulated by `getPalette` before sorting: the colors of
the scanned pixels, in scan order, with transparent pixels skipped. -/
def collectColors (img : Image) : List Color :=
  ((pixelSeq img).map fun p => img.At p.1 p.2).filter fun c => !transparent c

/-- `getPalette` from palettize.go: collect the non-transparent pixel colors
in scan order, then `sort.Sort(ByBrightness(palette))` (contract model). -/
def getPalette (img : Image) : List Color := sortSort (collectColors img)

/-- Helper for `indexOf`: the loop `for i := 0; i < len(colors); i++`
starting at counter value `i`. -/
def indexOfAux (c : Color) : List Color → ℤ → ℤ
  | [], _ => -1
  | d :: t, i => if d = c then i else indexOfAux c t (i + 1)

/-- `indexOf` from palettize.go: the first index of `c` in `colors`, or `-1`
if the color does not occur. -/
def indexOf (c : Color) (colors : List Color) : ℤ := indexOfAux c colors 0

theorem indexOfAux_of_not_mem {c : Color} {l : List Color} (h : c ∉ l) :
    ∀ i : ℤ, indexOfAux c l i = -1 := by
  induction l with
  | nil => intro i; rfl
  | cons d t ih =>
    intro i
    have hdc : ¬(d = c) := fun hdc => h (hdc ▸ List.mem_cons_self d t)
    have hct : c ∉ t := fun hct => h (List.mem_cons_of_mem d hct)
    simp only [indexOfAux, if_neg hdc]
    exact ih hct (i + 1)

theorem indexOf_of_not_mem {c : Color} {l : List Color} (h : c ∉ l) :
    indexOf c l = -1 :=
  indexOfAux_of_not_mem h 0

theorem indexOfAux_of_mem {c : Color} {l : List Color} (h : c ∈ l) :
    ∀ i : ℤ, i ≤ indexOfAux c l i ∧ indexOfAux c l i < i + l.length ∧
      l[(indexOfAux c l i - i).toNat]? = some c := by
  induction l with
  | nil => cases h
  | cons d t ih =>
    intro i
    by_cases hdc : d = c
    · refine ⟨?_, ?_, ?_⟩
      · simp [indexOfAux, hdc]
      · simp only [indexOfAux, if_pos hdc, List.length_cons]
        push_cast; omega
      · simp [indexOfAux, hdc]
    · have hct : c ∈ t := by
        rcases List.mem_cons.mp h with h1 | h2
        · exact absurd h1.symm hdc
        · exact h2
      obtain ⟨h1, h2, h3⟩ := ih hct (i + 1)
      refine ⟨?_, ?_, ?_⟩
      · simp only [indexOfAux, if_neg hdc]; omega
      · simp only [indexOfAux, if_neg hdc, List.length_cons]; push_cast; omega
      · simp only [indexOfAux, if_neg hdc]
        have hk : (indexOfAux c t (i + 1) - i).toNat =
            (indexOfAux c t (i + 1) - (i + 1)).toNat + 1 := by omega
        rw [hk]
        simpa using h3

theorem indexOf_mem_bounds {c : Color} {l : List Color} (h : c ∈ l) :
    0 ≤ indexOf c l ∧ indexOf c l < l.length ∧
      l[(indexOf c l).toNat]? = some c := by
  obtain ⟨h1, h2, h3⟩ := indexOfAux_of_mem h 0
  unfold indexOf
  refine ⟨h1, by omega, by simpa using h3⟩

theorem indexOf_neg_iff {c : Color} {l : List Color} :
    indexOf c l = -1 ↔ c ∉ l := by
  constructor
  · intro h hc
    have := (indexOf_mem_bounds hc).1
    omega
  · exact indexOf_of_not_mem

/-- Round a rational to the nearest integer, ties to even — the rounding step
of IEEE-754 round-to-nearest arithmetic. -/
def rne (q : ℚ) : ℤ :=
  let n := ⌊q⌋
  let f := q - n
  if f < 1 / 2 then n
  else if 1 / 2 < f then n + 1
  else if 2 ∣ n then n else n + 1

/-- Model of a Go `float64` value/result: round an exact rational to a 53-bit
significand (round to nearest, ties to even).  Overflow and subnormals are
not modelled (all values arising here are far inside the normal range). -/
def flq (q : ℚ) : ℚ :=
  if q = 0 then 0
  else if q < 0 then
    -((rne (-q * 2 ^ ((52 : ℤ) - Int.log 2 (-q))) : ℚ) *
      2 ^ (Int.log 2 (-q) - (52 : ℤ)))
  else
    (rne (q * 2 ^ ((52 : ℤ) - Int.log 2 q)) : ℚ) *
      2 ^ (Int.log 2 q - (52 : ℤ))

/-- `float64` multiplication: exact product, rounded. -/
def fmul (x y : ℚ) : ℚ := flq (x * y)

/-- `float64` division: exact quotient, rounded.  (`ℚ` division by zero gives
`0` where Go would give a non-finite value; the only program point dividing
by zero — an empty old palette — never consumes the quotient.) -/
def fdiv (x y : ℚ) : ℚ := flq (x / y)

/-- Go's `int(...)` conversion on a `float64`: truncation toward zero. -/
def truncQ (q : ℚ) : ℤ := if 0 ≤ q then ⌊q⌋ else -⌊-q⌋

/-- `ratio := float64(len(newPalette)) / float64(len(oldPalette))` from
`main`, computed once before the pixel loop. -/
def scaleOf (oldP newP : List Color) : ℚ :=
  fdiv (flq (newP.length : ℚ)) (flq (oldP.length : ℚ))

/-- The body of the pixel loop of `main`, for one source color `c`:
look up `c` in `oldPalette`; if absent (`-1`), pass `c` through; otherwise
substitute `newPalette[int(float64(index)*ratio)]`.  An out-of-range index
(possible since no clamp is applied) is `none`, modelling the Go runtime
panic of the slice access. -/
def remapPixel (oldP newP : List Color) (s : ℚ) (c : Color) : Option Color :=
  let index := indexOf c oldP
  if index = -1 then some c
  else
    let j := truncQ (fmul (flq (index : ℚ)) s)
    if h : 0 ≤ j ∧ j.toNat < newP.length then some (newP.get ⟨j.toNat, h.2⟩)
    else none

/-- Bounds of the output image:
`image.NewRGBA(image.Rect(0, 0, b.Dx(), b.Dy()))`. -/
def outRect (img : Image) : Rect := mkRect 0 0 img.bounds.Dx img.bounds.Dy

/-- The pixel content of the output image after the remap loop of `main`:
positions visited by the loop (source bounds) that lie inside the output
rectangle hold the remapped color (Go's `Set` silently drops out-of-bounds
writes); everything else keeps the zero value of a fresh `image.RGBA`. -/
def remapAt (img : Image) (oldP newP : List Color) (x y : ℤ) : Color :=
  if inRect img.bounds x y ∧ inRect (outRect img) x y then
    (remapPixel oldP newP (scaleOf oldP newP) (img.At x y)).getD zeroColor
  else zeroColor

/-- True iff no iteration of the remap loop panics on an out-of-range
`newPalette` index. -/
def remapOk (img : Image) (oldP newP : List Color) : Bool :=
  (pixelSeq img).all fun p =>
    (remapPixel oldP newP (scaleOf oldP newP) (img.At p.1 p.2)).isSome

/-- The remap pass of `main`: the output image, or `none` if some loop
iteration panics. -/
def remapImage (img : Image) (oldP newP : List Color) : Option Image :=
  if remapOk img oldP newP then some ⟨outRect img, remapAt img oldP newP⟩
  else none

/-- The whole transform of `main` after decoding: palettes of both images,
then the remap pass over the value image. -/
def remapResult (img palImg : Image) : Option Image :=
  remapImage img (getPalette img) (getPalette palImg)

/-- Observe one pixel of a possibly-failed run. -/
def obsAt (o : Option Image) (x y : ℤ) : Option Color :=
  o.map fun im => im.At x y

/-- Externally observable outcome of one invocation of `main`. -/
structure RunResult where
  usageShown : Bool
  exitCode : ℕ
  wroteOutput : Bool
deriving DecidableEq

/-- The entry check of `main`: with `len(os.Args) != 4` it prints the usage
line to stderr and executes `return`, so the process exits normally with
status 0 and no file is touched.  The happy path (decode, remap, encode) is
abstracted to "wrote the output file"; its I/O details are external
collaborators outside the core. -/
def runMain (args : List String) : RunResult :=
  if args.length ≠ 4 then ⟨true, 0, false⟩ else ⟨false, 0, true⟩

theorem mem_rangeZ {lo hi z : ℤ} : z ∈ rangeZ lo hi ↔ lo ≤ z ∧ z < hi := by
  unfold rangeZ
  simp only [List.mem_map, List.mem_range]
  constructor
  · rintro ⟨k, hk, rfl⟩
    omega
  · intro ⟨h1, h2⟩
    exact ⟨(z - lo).toNat, by omega, by omega⟩

theorem mem_pixelSeq {img : Image} {x y : ℤ} :
    (x, y) ∈ pixelSeq img ↔ inRect img.bounds x y := by
  unfold pixelSeq inRect
  simp only [List.mem_flatMap, List.mem_map, mem_rangeZ, Prod.mk.injEq]
  constructor
  · rintro ⟨a, ha, b, hb, h1, h2⟩
    subst h1
    subst h2
    exact ⟨ha.1, ha.2, hb.1, hb.2⟩
  · intro ⟨h1, h2, h3, h4⟩
    exact ⟨x, ⟨h1, h2⟩, y, ⟨h3, h4⟩, rfl, rfl⟩

theorem getPalette_perm (img : Image) :
    (getPalette img).Perm (collectColors img) :=
  List.perm_insertionSort _ _

theorem getPalette_sorted (img : Image) :
    List.Sorted brightLE (getPalette img) :=
  List.sorted_insertionSort _ _

theorem mem_getPalette {img : Image} {c : Color} :
    c ∈ getPalette img ↔ c ∈ collectColors img :=
  (getPalette_perm img).mem_iff

theorem getPalette_alpha_ne {img : Image} {c : Color} (h : c ∈ getPalette img) :
    c.a ≠ 0 := by
  have hm := mem_getPalette.mp h
  unfold collectColors at hm
  have := (List.mem_filter.mp hm).2
  simpa [transparent] using this

theorem not_mem_getPalette_of_transparent {img : Image} {c : Color}
    (h : c.a = 0) : c ∉ getPalette img :=
  fun hc => getPalette_alpha_ne hc h

theorem remapOk_pixel {img : Image} {oldP newP : List Color}
    (h : remapOk img oldP newP = true) {x y : ℤ}
    (hin : inRect img.bounds x y) :
    (remapPixel oldP newP (scaleOf oldP newP) (img.At x y)).isSome = true := by
  unfold remapOk at h
  exact List.all_eq_true.mp h (x, y) (mem_pixelSeq.mpr hin)

theorem remapImage_some {img : Image} {oldP newP : List Color} {out : Image}
    (h : remapImage img oldP newP = some out) :
    remapOk img oldP newP = true ∧
      out = ⟨outRect img, remapAt img oldP newP⟩ := by
  unfold remapImage at h
  by_cases hok : remapOk img oldP newP
  · refine ⟨hok, ?_⟩
    rw [if_pos hok] at h
    exact (Option.some.injEq _ _ ▸ h).symm
  · rw [if_neg hok] at h
    cases h

theorem rne_intCast (n : ℤ) : rne (n : ℚ) = n := by
  unfold rne
  norm_num

theorem log2_eq_of {q : ℚ} {z : ℤ} (hq : 0 < q) (h1 : (2 : ℚ) ^ z ≤ q)
    (h2 : q < (2 : ℚ) ^ (z + 1)) : Int.log 2 q = z := by
  have ha : (1 : ℚ) < 2 := one_lt_two
  have e1 : (2 : ℚ) ^ Int.log 2 q ≤ q := by
    have := Int.zpow_log_le_self (R := ℚ) (b := 2) one_lt_two hq
    exact_mod_cast this
  have e2 : q < (2 : ℚ) ^ (Int.log 2 q + 1) := by
    have := Int.lt_zpow_succ_log_self (R := ℚ) (b := 2) one_lt_two q
    exact_mod_cast this
  have l1 : Int.log 2 q < z + 1 :=
    (zpow_lt_zpow_iff_right₀ ha).mp (lt_of_le_of_lt e1 h2)
  have l2 : z < Int.log 2 q + 1 :=
    (zpow_lt_zpow_iff_right₀ ha).mp (lt_of_le_of_lt h1 e2)
  omega

theorem flq_dyadic (m : ℕ) (z : ℤ) (h1 : 0 < m) (h2 : m < 2 ^ 53) :
    flq ((m : ℚ) * 2 ^ z) = (m : ℚ) * 2 ^ z := by
  have h2ne : (2 : ℚ) ≠ 0 := by norm_num
  have hq : (0 : ℚ) < (m : ℚ) * 2 ^ z := by positivity
  set L : ℕ := Nat.log 2 m with hLdef
  have hL52 : L ≤ 52 := by
    have := Nat.log_lt_of_lt_pow (Nat.pos_iff_ne_zero.mp h1) h2
    omega
  have hlow : (2 : ℚ) ^ (z + (L : ℤ)) ≤ (m : ℚ) * 2 ^ z := by
    have hp : (2 : ℕ) ^ L ≤ m := Nat.pow_log_le_self 2 (Nat.pos_iff_ne_zero.mp h1)
    have hpQ : (2 : ℚ) ^ (L : ℤ) ≤ (m : ℚ) := by
      rw [zpow_natCast]
      exact_mod_cast hp
    calc (2 : ℚ) ^ (z + (L : ℤ)) = (2 : ℚ) ^ (L : ℤ) * 2 ^ z := by
          rw [← zpow_add₀ h2ne]
          ring_nf
      _ ≤ (m : ℚ) * 2 ^ z := mul_le_mul_of_nonneg_right hpQ (by positivity)
  have hhigh : (m : ℚ) * 2 ^ z < (2 : ℚ) ^ (z + (L : ℤ) + 1) := by
    have hp : m < (2 : ℕ) ^ (L + 1) := Nat.lt_pow_succ_log_self (by norm_num) m
    have hpQ : (m : ℚ) < (2 : ℚ) ^ ((L : ℤ) + 1) := by
      have hc : ((L : ℤ) + 1) = ((L + 1 : ℕ) : ℤ) := by push_cast; ring
      rw [hc, zpow_natCast]
      exact_mod_cast hp
    calc (m : ℚ) * 2 ^ z < (2 : ℚ) ^ ((L : ℤ) + 1) * 2 ^ z :=
          mul_lt_mul_of_pos_right hpQ (by positivity)
      _ = (2 : ℚ) ^ (z + (L : ℤ) + 1) := by
          rw [← zpow_add₀ h2ne]
          ring_nf
  have he : Int.log 2 ((m : ℚ) * 2 ^ z) = z + (L : ℤ) :=
    log2_eq_of hq hlow hhigh
  unfold flq
  rw [if_neg (ne_of_gt hq), if_neg (not_lt.mpr hq.le), he]
  have hexp : ((52 - L : ℕ) : ℤ) = z + ((52 : ℤ) - (z + (L : ℤ))) := by omega
  have harg : (m : ℚ) * 2 ^ z * 2 ^ ((52 : ℤ) - (z + (L : ℤ))) =
      ((m * 2 ^ (52 - L) : ℕ) : ℚ) := by
    push_cast
    rw [← zpow_natCast (2 : ℚ) (52 - L), hexp, zpow_add₀ h2ne, ← mul_assoc]
  rw [harg,
    show ((m * 2 ^ (52 - L) : ℕ) : ℚ) = (((m * 2 ^ (52 - L) : ℕ) : ℤ) : ℚ) from by
      push_cast
      ring,
    rne_intCast]
  push_cast
  rw [← zpow_natCast (2 : ℚ) (52 - L), mul_assoc, ← zpow_add₀ h2ne,
    show ((52 - L : ℕ) : ℤ) + (z + (L : ℤ) - 52) = z from by omega]

theorem flq_zero : flq 0 = 0 := by
  unfold flq
  simp

theorem flq_natCast (k : ℕ) (h : k < 2 ^ 53) : flq (k : ℚ) = (k : ℚ) := by
  rcases Nat.eq_zero_or_pos k with hk | hk
  · subst hk
    simpa using flq_zero
  · simpa using flq_dyadic k 0 hk h

theorem flq_one : flq 1 = 1 := by
  simpa using flq_natCast 1 (by norm_num)

theorem truncQ_intCast (n : ℤ) : truncQ (n : ℚ) = n := by
  unfold truncQ
  by_cases h : (0 : ℚ) ≤ (n : ℚ)
  · rw [if_pos h, Int.floor_intCast]
  · rw [if_neg h, show -((n : ℚ)) = ((-n : ℤ) : ℚ) from by push_cast; ring,
      Int.floor_intCast]
    ring

theorem flq_int {i : ℤ} (h0 : 0 ≤ i) (h53 : i < 2 ^ 53) :
    flq (i : ℚ) = (i : ℚ) := by
  have hi : i = (i.toNat : ℤ) := by omega
  rw [hi]
  push_cast
  exact flq_natCast i.toNat (by omega)

theorem scaleOf_self {p : List Color} (hne : p ≠ []) (hlen : p.length < 2 ^ 53) :
    scaleOf p p = 1 := by
  unfold scaleOf fdiv
  have hl0 : p.length ≠ 0 := fun h => hne (List.length_eq_zero.mp h)
  rw [flq_natCast _ hlen, div_self (by exact_mod_cast hl0), flq_one]

theorem trunc_fmul_one {i : ℤ} (h0 : 0 ≤ i) (h53 : i < 2 ^ 53) :
    truncQ (fmul (flq (i : ℚ)) 1) = i := by
  unfold fmul
  rw [flq_int h0 h53, mul_one, flq_int h0 h53, truncQ_intCast]

/-!
Faithful model of the Go standard library's `sort.Sort` as shipped in Go
releases 1.9 through 1.18 (file `src/sort/sort.go`: introsort — quicksort
with median-of-three/ninther pivoting and a duplicate-protection pass,
falling back to heapsort past the depth limit, and finishing ranges of at
most 12 elements with a gap-6 ShellSort pass followed by insertion sort).
The data interface is `ByBrightness`: `Len`, `Swap`, and
`Less(i,j) = brightness(a[i]) < brightness(a[j])`.

Indices are `ℕ` (every reachable index in a run is nonnegative) and the
unbounded `for` loops carry explicit fuel; every fuel argument passed below
strictly exceeds the number of iterations any run can perform, so the
fuel-exhaustion branches are dead.  This model exists to evaluate the actual
library behavior on concrete inputs (in particular its instability on equal
keys); general theorems about sortedness use the contract model `sortSort`
above.
-/

/-- `brightness(a[i])` for the array form of the palette. -/
def bAt (arr : Array Color) (i : ℕ) : ℕ := brightness (arr.getD i zeroColor)

/-- `data.Less(i, j)` of `ByBrightness`. -/
def lessAt (arr : Array Color) (i j : ℕ) : Bool := bAt arr i < bAt arr j

/-- `data.Swap(i, j)` (out-of-range indices never occur in a run). -/
def swp (arr : Array Color) (i j : ℕ) : Array Color :=
  if h : i < arr.size ∧ j < arr.size then arr.swap ⟨i, h.1⟩ ⟨j, h.2⟩ else arr

/-- Inner loop of `insertionSort`:
`for j := i; j > a && data.Less(j, j-1); j--`. -/
def insInner (a : ℕ) : Array Color → ℕ → Array Color
  | arr, 0 => arr
  | arr, j + 1 =>
    if a < j + 1 ∧ lessAt arr (j + 1) j then insInner a (swp arr (j + 1) j) j
    else arr

/-- `insertionSort(data, a, b)` from sort.go. -/
def insertionSortGo (arr : Array Color) (a b : ℕ) : Array Color :=
  (List.range' (a + 1) (b - (a + 1))).foldl (fun ar i => insInner a ar i) arr

/-- `siftDown(data, lo, hi, first)` from sort.go (`root` is the loop
variable; first argument after `first` is the fuel). -/
def siftDownGo (first : ℕ) : ℕ → ℕ → ℕ → Array Color → Array Color
  | 0, _, _, arr => arr
  | fuel + 1, root, hi, arr =>
    let child := 2 * root + 1
    if child ≥ hi then arr
    else
      let child :=
        if child + 1 < hi ∧ lessAt arr (first + child) (first + child + 1) then
          child + 1
        else child
      if ¬ lessAt arr (first + root) (first + child) then arr
      else siftDownGo first fuel child hi (swp arr (first + root) (first + child))

/-- `heapSort(data, a, b)` from sort.go. -/
def heapSortGo (arr : Array Color) (a b : ℕ) : Array Color :=
  let first := a
  let hi := b - a
  let arr1 := ((List.range ((hi - 1) / 2 + 1)).reverse).foldl
    (fun ar i => siftDownGo first (hi + 1) i hi ar) arr
  ((List.range hi).reverse).foldl
    (fun ar i => siftDownGo first (hi + 1) 0 i (swp ar first (first + i))) arr1

/-- `medianOfThree(data, m1, m0, m2)` from sort.go. -/
def medianOfThreeGo (arr : Array Color) (m1 m0 m2 : ℕ) : Array Color :=
  let arr := if lessAt arr m1 m0 then swp arr m1 m0 else arr
  if lessAt arr m2 m1 then
    let arr2 := swp arr m2 m1
    if lessAt arr2 m1 m0 then swp arr2 m1 m0 else arr2
  else arr

/-- `doPivot` initial scan: `for ; a < c && data.Less(a, pivot); a++`. -/
def dpLoopA (arr : Array Color) (pivot c : ℕ) : ℕ → ℕ → ℕ
  | 0, a => a
  | fuel + 1, a =>
    if a < c ∧ lessAt arr a pivot then dpLoopA arr pivot c fuel (a + 1) else a

/-- `doPivot` scan: `for ; b < c && !data.Less(pivot, b); b++`. -/
def dpScanB (arr : Array Color) (pivot c : ℕ) : ℕ → ℕ → ℕ
  | 0, b => b
  | fuel + 1, b =>
    if b < c ∧ ¬ lessAt arr pivot b then dpScanB arr pivot c fuel (b + 1) else b

/-- `doPivot` scan: `for ; b < c && data.Less(pivot, c-1); c--`. -/
def dpScanC (arr : Array Color) (pivot b : ℕ) : ℕ → ℕ → ℕ
  | 0, c => c
  | fuel + 1, c =>
    if b < c ∧ lessAt arr pivot (c - 1) then dpScanC arr pivot b fuel (c - 1) else c

/-- The middle `for {}` partition loop of `doPivot`. -/
def dpLoopB : ℕ → Array Color → ℕ → ℕ → ℕ → Array Color × ℕ × ℕ
  | 0, arr, _, b, c => (arr, b, c)
  | fuel + 1, arr, pivot, b, c =>
    let b1 := dpScanB arr pivot c (c + 1) b
    let c1 := dpScanC arr pivot b1 (c + 1) c
    if b1 ≥ c1 then (arr, b1, c1)
    else dpLoopB fuel (swp arr b1 (c1 - 1)) pivot (b1 + 1) (c1 - 1)

/-- `doPivot` protect scan: `for ; a < b && !data.Less(b-1, pivot); b--`. -/
def dpScanB2 (arr : Array Color) (pivot a : ℕ) : ℕ → ℕ → ℕ
  | 0, b => b
  | fuel + 1, b =>
    if a < b ∧ ¬ lessAt arr (b - 1) pivot then dpScanB2 arr pivot a fuel (b - 1)
    else b

/-- `doPivot` protect scan: `for ; a < b && data.Less(a, pivot); a++`. -/
def dpScanA2 (arr : Array Color) (pivot b : ℕ) : ℕ → ℕ → ℕ
  | 0, a => a
  | fuel + 1, a =>
    if a < b ∧ lessAt arr a pivot then dpScanA2 arr pivot b fuel (a + 1) else a

/-- The `if protect { for {} }` loop of `doPivot`. -/
def dpLoopProtect : ℕ → Array Color → ℕ → ℕ → ℕ → Array Color × ℕ × ℕ
  | 0, arr, _, a, b => (arr, a, b)
  | fuel + 1, arr, pivot, a, b =>
    let b1 := dpScanB2 arr pivot a (b + 1) b
    let a1 := dpScanA2 arr pivot b1 (b1 + 1) a
    if a1 ≥ b1 then (arr, a1, b1)
    else dpLoopProtect fuel (swp arr a1 (b1 - 1)) pivot (a1 + 1) (b1 - 1)

/-- The three duplicate-counting tests of `doPivot` (the
`if !protect && hi-c < (hi-lo)/4` block), returning the updated array, `b`,
`c`, and `dups`. -/
def doPivotDups (arr : Array Color) (pivot m hi b c : ℕ) :
    Array Color × ℕ × ℕ × ℕ :=
  let p1 := ¬ lessAt arr pivot (hi - 1)
  let arr1 := if p1 then swp arr c (hi - 1) else arr
  let c1 := if p1 then c + 1 else c
  let d1 : ℕ := if p1 then 1 else 0
  let p2 := ¬ lessAt arr1 (b - 1) pivot
  let b2 := if p2 then b - 1 else b
  let d2 := if p2 then d1 + 1 else d1
  let p3 := ¬ lessAt arr1 m pivot
  let arr3 := if p3 then swp arr1 m (b2 - 1) else arr1
  let b3 := if p3 then b2 - 1 else b2
  let d3 := if p3 then d2 + 1 else d2
  (arr3, b3, c1, d3)

/-- `doPivot(data, lo, hi) (midlo, midhi)` from sort.go. -/
def doPivotGo (arr0 : Array Color) (lo hi : ℕ) : Array Color × ℕ × ℕ :=
  let m := (lo + hi) / 2
  let arrA :=
    if hi - lo > 40 then
      let s := (hi - lo) / 8
      medianOfThreeGo
        (medianOfThreeGo (medianOfThreeGo arr0 lo (lo + s) (lo + 2 * s)) m
          (m - s) (m + s))
        (hi - 1) (hi - 1 - s) (hi - 1 - 2 * s)
    else arr0
  let arrB := medianOfThreeGo arrA lo m (hi - 1)
  let pivot := lo
  let a := dpLoopA arrB pivot (hi - 1) (hi + 1) (lo + 1)
  let r := dpLoopB (hi + 1) arrB pivot a (hi - 1)
  let arrC := r.1
  let b := r.2.1
  let c := r.2.2
  let protect1 := hi - c < 5
  let r2 :=
    if ¬ protect1 ∧ hi - c < (hi - lo) / 4 then
      let d := doPivotDups arrC pivot m hi b c
      (d.1, d.2.1, d.2.2.1, decide (d.2.2.2 > 1))
    else (arrC, b, c, decide protect1)
  let arrD := r2.1
  let b2 := r2.2.1
  let c2 := r2.2.2.1
  let protect := r2.2.2.2
  let r3 := if protect then dpLoopProtect (hi + 1) arrD pivot a b2
    else (arrD, a, b2)
  let arrE := r3.1
  let b3 := r3.2.2
  (swp arrE pivot (b3 - 1), b3 - 1, c2)

/-- `quickSort(data, a, b, maxDepth)` from sort.go.  The `for b-a > 12` loop
with one-sided recursion is written as two recursive calls (the loop
continuation is a tail call); ranges of at most 12 elements get the gap-6
ShellSort pass and insertion sort, exactly as in the library. -/
def quickSortGo : ℕ → Array Color → ℕ → ℕ → ℕ → Array Color
  | 0, arr, _, _, _ => arr
  | fuel + 1, arr, a, b, maxDepth =>
    if b - a > 12 then
      if maxDepth = 0 then heapSortGo arr a b
      else
        let r := doPivotGo arr a b
        let arr1 := r.1
        let mlo := r.2.1
        let mhi := r.2.2
        if mlo - a < b - mhi then
          quickSortGo fuel (quickSortGo fuel arr1 a mlo (maxDepth - 1)) mhi b
            (maxDepth - 1)
        else
          quickSortGo fuel (quickSortGo fuel arr1 mhi b (maxDepth - 1)) a mlo
            (maxDepth - 1)
    else
      if b - a > 1 then
        let arr1 := (List.range' (a + 6) (b - (a + 6))).foldl
          (fun ar i => if lessAt ar i (i - 6) then swp ar i (i - 6) else ar) arr
        insertionSortGo arr1 a b
      else arr

/-- The loop of `maxDepth(n)`: `for i := n; i > 0; i >>= 1 { depth++ }`. -/
def mdl : ℕ → ℕ → ℕ → ℕ
  | 0, _, depth => depth
  | fuel + 1, i, depth => if i > 0 then mdl fuel (i / 2) (depth + 1) else depth

/-- `maxDepth(n)` from sort.go: `2 * ceil(lg(n+1))`. -/
def maxDepthGo (n : ℕ) : ℕ := 2 * mdl (n + 1) n 0

/-- `Sort(data)` from sort.go, Go releases 1.9–1.18, on a color list. -/
def goSortSort (l : List Color) : List Color :=
  (quickSortGo (2 * l.length + 64) l.toArray 0 l.length
    (maxDepthGo l.length)).toList

/-- `getPalette` with the library sort realized by the Go 1.9–1.18
implementation instead of the contract model. -/
def getPaletteGo (img : Image) : List Color := goSortSort (collectColors img)

/-!
Concrete test fixtures.  `colImage cs` is a 1×n image whose single column of
pixels is the list `cs`, with zero-origin bounds — the bounds shape Go's PNG
decoder always produces.  Color components are `RGBA()` 16-bit values.
-/

/-- A 1×n image holding the given column of pixels. -/
def colImage (cs : List Color) : Image :=
  ⟨⟨0, 0, 1, (cs.length : ℤ)⟩, fun x y =>
    if x = 0 ∧ 0 ≤ y ∧ y < (cs.length : ℤ) then cs.getD y.toNat zeroColor
    else zeroColor⟩

/-- Brightness 5, scanned first among the brightness-5 colors of `img7`. -/
def cA : Color := ⟨5, 0, 0, 65535⟩

/-- Brightness 5, distinct from `cA`, scanned after it. -/
def cC : Color := ⟨0, 5, 0, 65535⟩

/-- Brightness 3, the dimmest pixel of `img7`. -/
def cB : Color := ⟨1, 1, 1, 65535⟩

def cP : Color := ⟨10, 0, 0, 65535⟩

def cQ : Color := ⟨0, 10, 0, 65535⟩

def cR : Color := ⟨0, 0, 10, 65535⟩

def cS : Color := ⟨4, 3, 3, 65535⟩

def cRed : Color := ⟨65535, 0, 0, 65535⟩

def cBlack : Color := ⟨0, 0, 0, 65535⟩

def cGray : Color := ⟨32896, 32896, 32896, 65535⟩

/-- Two identical opaque pixels. -/
def imgDup : Image := colImage [cRed, cRed]

/-- Seven opaque pixels: two of equal brightness 5 (`cA` scanned before
`cC`), four of brightness 10, one of brightness 3 in the last scan slot. -/
def img7 : Image := colImage [cA, cP, cQ, cC, cR, cS, cB]

/-- One opaque black pixel. -/
def imgBlack : Image := colImage [cBlack]

/-- One opaque gray pixel. -/
def imgGray : Image := colImage [cGray]

/-- One transparent pixel (`RGBA()` of any fully transparent color is
`(0,0,0,0)`). -/
def imgClear : Image := colImage [zeroColor]

/-- C1, counterexample: an image whose two pixels hold the same opaque color.
`getPalette` (under the `sort.Sort` contract model, and equally under the
faithful Go 1.9–1.18 implementation) returns that color twice — the current
`getPalette` performs no deduplication, so the extracted palette is not
duplicate-free. -/
theorem c1_dup_counterexample :
    getPalette imgDup = [cRed, cRed] ∧ getPaletteGo imgDup = [cRed, cRed] ∧
      ¬ (getPalette imgDup).Nodup := by decide

/-- C1, amended: for every input image the palette returned by `getPalette`
is sorted monotonically non-decreasing in brightness (but it can contain
equal colors: no deduplication is performed). -/
theorem c1_palette_sorted_nondecreasing (img : Image) :
    List.Sorted brightLE (getPalette img) :=
  getPalette_sorted img

/-- C2, counterexample: in `img7` the colors `cA` and `cC` have equal
brightness and `cA` is encountered first in the pixel scan, yet under the
actual `sort.Sort` implementation of Go 1.9–1.18 (gap-6 ShellSort pass before
insertion sort for ranges of at most 12 elements) the palette lists `cC`
before `cA`: the sort is not stable and equal-brightness colors do not retain
scan order. -/
theorem c2_stability_counterexample :
    brightness cA = brightness cC ∧ cA ≠ cC ∧
      collectColors img7 = [cA, cP, cQ, cC, cR, cS, cB] ∧
      getPaletteGo img7 = [cB, cC, cA, cP, cQ, cR, cS] := by decide

/-- C2, amended: `getPalette` sorts the collected opaque-pixel colors into
some permutation that is non-decreasing in brightness; the relative order of
equal-brightness colors is not specified (Go's `sort.Sort` is documented as
unstable, and the Go 1.9–1.18 implementation actually reorders them). -/
theorem c2_sorted_permutation (img : Image) :
    List.Sorted brightLE (getPalette img) ∧
      (getPalette img).Perm (collectColors img) :=
  ⟨getPalette_sorted img, getPalette_perm img⟩

/-- C7, counterexample: invoked with one positional argument (two entries in
`os.Args`), the program prints the usage line and touches no file, but
`main` just executes `return`, so the process terminates with exit status 0 —
not the non-zero status the claim requires. -/
theorem c7_exit_status_counterexample :
    (runMain ["palettize", "in.png"]).usageShown = true ∧
      (runMain ["palettize", "in.png"]).wroteOutput = false ∧
      (runMain ["palettize", "in.png"]).exitCode = 0 := by decide

/-- C7, amended: with any number of arguments other than three positional
inputs, the program reports a usage error and touches no files, but
terminates normally with exit status zero. -/
theorem c7_usage_behavior (args : List String) (h : args.length ≠ 4) :
    (runMain args).usageShown = true ∧ (runMain args).wroteOutput = false ∧
      (runMain args).exitCode = 0 := by
  unfold runMain
  rw [if_pos h]
  exact ⟨rfl, rfl, rfl⟩

theorem c7_usage_behavior_witness :
    (runMain ["palettize"]).usageShown = true ∧
      (runMain ["palettize"]).wroteOutput = false ∧
      (runMain ["palettize"]).exitCode = 0 :=
  c7_usage_behavior ["palettize"] (by decide)

/-- C9: the transform is deterministic — the output is a pure function of the
two decoded input images, so two runs over the same images produce identical
palettes and an identical output image. -/
theorem c9_deterministic (img1 img2 palImg1 palImg2 : Image)
    (h1 : img1 = img2) (h2 : palImg1 = palImg2) :
    remapResult img1 palImg1 = remapResult img2 palImg2 ∧
      getPalette img1 = getPalette img2 := by
  subst h1
  subst h2
  exact ⟨rfl, rfl⟩

theorem c9_deterministic_witness :
    remapResult img7 imgGray = remapResult img7 imgGray ∧
      getPalette img7 = getPalette img7 :=
  c9_deterministic img7 img7 imgGray imgGray rfl rfl

/-- C10: for colors whose `RGBA()` components are 16-bit values, `brightness`
computes the exact sum `r + g + b` in a `uint32` with no overflow (at most
196605 < 2^32), so `ByBrightness.Less` compares exact integer sums. -/
theorem c10_brightness_exact (c d : Color)
    (hc : c.r ≤ 65535 ∧ c.g ≤ 65535 ∧ c.b ≤ 65535)
    (hd : d.r ≤ 65535 ∧ d.g ≤ 65535 ∧ d.b ≤ 65535) :
    brightness c = c.r + c.g + c.b ∧ brightness c ≤ 196605 ∧
      (lessBB c d = true ↔ c.r + c.g + c.b < d.r + d.g + d.b) := by
  obtain ⟨h1, h2, h3⟩ := hc
  obtain ⟨h4, h5, h6⟩ := hd
  have e1 : brightness c = c.r + c.g + c.b := by
    unfold brightness
    apply Nat.mod_eq_of_lt
    omega
  have e2 : brightness d = d.r + d.g + d.b := by
    unfold brightness
    apply Nat.mod_eq_of_lt
    omega
  refine ⟨e1, by omega, ?_⟩
  unfold lessBB
  rw [e1, e2]
  simp

theorem c10_brightness_exact_witness :
    brightness cBlack = cBlack.r + cBlack.g + cBlack.b ∧
      brightness cBlack ≤ 196605 ∧
      (lessBB cBlack cGray = true ↔
        cBlack.r + cBlack.g + cBlack.b < cGray.r + cGray.g + cGray.b) :=
  c10_brightness_exact cBlack cGray (by decide) (by decide)

theorem outRect_of_zero_origin {img : Image} (hx0 : img.bounds.minX = 0)
    (hy0 : img.bounds.minY = 0) (hx : 0 ≤ img.bounds.maxX)
    (hy : 0 ≤ img.bounds.maxY) : outRect img = img.bounds := by
  obtain ⟨⟨a, b, c, d⟩, f⟩ := img
  simp only at hx0 hy0 hx hy
  subst hx0
  subst hy0
  unfold outRect mkRect Rect.Dx Rect.Dy
  simp only [Rect.mk.injEq]
  split_ifs <;> omega

theorem inRect_out_of_zero {img : Image} (hx0 : img.bounds.minX = 0)
    (hy0 : img.bounds.minY = 0) {x y : ℤ} (hin : inRect img.bounds x y) :
    inRect (outRect img) x y := by
  have hin' := hin
  unfold inRect at hin'
  rw [outRect_of_zero_origin hx0 hy0 (by omega) (by omega)]
  exact hin

theorem remapPixel_found {oldP : List Color} (newP : List Color) {c : Color}
    {i : ℤ} (hi : indexOf c oldP = i) (hge : 0 ≤ i) (s : ℚ) :
    remapPixel oldP newP s c =
      if 0 ≤ truncQ (fmul (flq (i : ℚ)) s) then
        newP[(truncQ (fmul (flq (i : ℚ)) s)).toNat]?
      else none := by
  simp only [remapPixel, hi]
  rw [if_neg (by omega : ¬ (i = -1))]
  by_cases h0 : 0 ≤ truncQ (fmul (flq (i : ℚ)) s)
  · rw [if_pos h0]
    by_cases hlt : (truncQ (fmul (flq (i : ℚ)) s)).toNat < newP.length
    · rw [dif_pos ⟨h0, hlt⟩, List.getElem?_eq_getElem hlt]
      rfl
    · rw [dif_neg (fun hc => hlt hc.2), List.getElem?_eq_none (by omega)]
  · rw [if_neg h0, dif_neg (fun hc => h0 hc.1)]

theorem remapAt_eq_getD {img : Image} {oldP newP : List Color} {x y : ℤ}
    (hin : inRect img.bounds x y) (hout : inRect (outRect img) x y) :
    remapAt img oldP newP x y =
      (remapPixel oldP newP (scaleOf oldP newP) (img.At x y)).getD zeroColor := by
  unfold remapAt
  rw [if_pos ⟨hin, hout⟩]

theorem mem_collectColors_of_alpha_ne {img : Image} {x y : ℤ}
    (hin : inRect img.bounds x y) (hop : (img.At x y).a ≠ 0) :
    img.At x y ∈ collectColors img := by
  unfold collectColors
  rw [List.mem_filter]
  refine ⟨List.mem_map.mpr ⟨(x, y), mem_pixelSeq.mpr hin, rfl⟩, ?_⟩
  simp [transparent, hop]

theorem remapPixel_self {p : List Color} (hlen : p.length < 2 ^ 53)
    (hs : scaleOf p p = 1) {c : Color} (hc : c ∈ p) :
    remapPixel p p (scaleOf p p) c = some c := by
  obtain ⟨h0, hlt, hget⟩ := indexOf_mem_bounds hc
  have hiq : truncQ (fmul (flq ((indexOf c p : ℤ) : ℚ)) (scaleOf p p)) =
      indexOf c p := by
    rw [hs]
    exact trunc_fmul_one h0 (by omega)
  have h0' : 0 ≤ truncQ (fmul (flq ((indexOf c p : ℤ) : ℚ)) (scaleOf p p)) := by
    rw [hiq]
    exact h0
  have hlt' : (truncQ (fmul (flq ((indexOf c p : ℤ) : ℚ))
      (scaleOf p p))).toNat < p.length := by
    rw [hiq]
    omega
  have hJ : p[(truncQ (fmul (flq ((indexOf c p : ℤ) : ℚ))
      (scaleOf p p))).toNat]? = some c := by
    rw [hiq]
    exact hget
  rw [List.getElem?_eq_getElem hlt'] at hJ
  simp only [remapPixel]
  rw [if_neg (by omega : ¬ (indexOf c p = -1)), dif_pos ⟨h0', hlt'⟩,
    List.get_eq_getElem]
  exact hJ

/-- C3: for a source pixel whose color is found in the old palette at (first)
index `i ≥ 0` (linear search `indexOf`), the loop body evaluates
`newPalette[int(float64(i) * ratio)]` with `ratio` the `float64` quotient of
the palette lengths computed once before the loop, and no clamp is applied to
the computed index (an out-of-range index is the `none`/panic case, never
clamped); when the run completes, the output pixel at the same position is
exactly that palette entry. -/
theorem c3_found_pixel_formula (img palImg out : Image) (x y i : ℤ)
    (hx0 : img.bounds.minX = 0) (hy0 : img.bounds.minY = 0)
    (hin : inRect img.bounds x y)
    (hi : indexOf (img.At x y) (getPalette img) = i) (hge : 0 ≤ i) :
    remapPixel (getPalette img) (getPalette palImg)
        (scaleOf (getPalette img) (getPalette palImg)) (img.At x y) =
      (if 0 ≤ truncQ (fmul (flq (i : ℚ))
          (scaleOf (getPalette img) (getPalette palImg))) then
        (getPalette palImg)[(truncQ (fmul (flq (i : ℚ))
          (scaleOf (getPalette img) (getPalette palImg)))).toNat]?
      else none) ∧
      (remapResult img palImg = some out →
        (getPalette palImg)[(truncQ (fmul (flq (i : ℚ))
          (scaleOf (getPalette img) (getPalette palImg)))).toNat]? =
          some (out.At x y)) := by
  have part1 := remapPixel_found (getPalette palImg) hi hge
    (scaleOf (getPalette img) (getPalette palImg))
  refine ⟨part1, fun hres => ?_⟩
  unfold remapResult at hres
  obtain ⟨hok, hout⟩ := remapImage_some hres
  have hsome := remapOk_pixel hok hin
  rw [part1] at hsome
  by_cases h0 : 0 ≤ truncQ (fmul (flq (i : ℚ))
      (scaleOf (getPalette img) (getPalette palImg)))
  · rw [if_pos h0] at hsome
    obtain ⟨v, hv⟩ := Option.isSome_iff_exists.mp hsome
    have hAt : out.At x y = v := by
      rw [hout]
      show remapAt img (getPalette img) (getPalette palImg) x y = v
      rw [remapAt_eq_getD hin (inRect_out_of_zero hx0 hy0 hin), part1,
        if_pos h0, hv]
      rfl
    rw [hAt, hv]
  · rw [if_neg h0] at hsome
    simp at hsome

/-- The output image of the `imgBlack` → `imgGray` run. -/
def outBG : Image :=
  ⟨outRect imgBlack, remapAt imgBlack (getPalette imgBlack) (getPalette imgGray)⟩

theorem c3_found_pixel_formula_witness :
    remapPixel (getPalette imgBlack) (getPalette imgGray)
        (scaleOf (getPalette imgBlack) (getPalette imgGray)) (imgBlack.At 0 0) =
      (if 0 ≤ truncQ (fmul (flq ((0 : ℤ) : ℚ))
          (scaleOf (getPalette imgBlack) (getPalette imgGray))) then
        (getPalette imgGray)[(truncQ (fmul (flq ((0 : ℤ) : ℚ))
          (scaleOf (getPalette imgBlack) (getPalette imgGray)))).toNat]?
      else none) ∧
      (remapResult imgBlack imgGray = some outBG →
        (getPalette imgGray)[(truncQ (fmul (flq ((0 : ℤ) : ℚ))
          (scaleOf (getPalette imgBlack) (getPalette imgGray)))).toNat]? =
          some (outBG.At 0 0)) :=
  c3_found_pixel_formula imgBlack imgGray outBG 0 0 0 rfl rfl (by decide)
    (by decide) (by decide)

/-- C4: a source pixel whose color is absent from the old palette — in
particular every transparent pixel (alpha exactly zero), which is skipped by
extraction and, being distinct from every opaque palette color, can never be
found — is copied unchanged into the output image at the same position. -/
theorem c4_pass_through (img palImg out : Image) (x y : ℤ)
    (hx0 : img.bounds.minX = 0) (hy0 : img.bounds.minY = 0)
    (hin : inRect img.bounds x y)
    (habs : img.At x y ∉ getPalette img ∨ (img.At x y).a = 0) :
    remapPixel (getPalette img) (getPalette palImg)
        (scaleOf (getPalette img) (getPalette palImg)) (img.At x y) =
      some (img.At x y) ∧
      (remapResult img palImg = some out → out.At x y = img.At x y) := by
  have hnot : img.At x y ∉ getPalette img := by
    rcases habs with h | h
    · exact h
    · exact not_mem_getPalette_of_transparent h
  have hneg : indexOf (img.At x y) (getPalette img) = -1 :=
    indexOf_of_not_mem hnot
  have part1 : remapPixel (getPalette img) (getPalette palImg)
      (scaleOf (getPalette img) (getPalette palImg)) (img.At x y) =
      some (img.At x y) := by
    simp only [remapPixel, hneg, ite_true]
  refine ⟨part1, fun hres => ?_⟩
  unfold remapResult at hres
  obtain ⟨hok, hout⟩ := remapImage_some hres
  rw [hout]
  show remapAt img (getPalette img) (getPalette palImg) x y = img.At x y
  rw [remapAt_eq_getD hin (inRect_out_of_zero hx0 hy0 hin), part1]
  rfl

/-- The output image of the `imgClear` → `imgGray` run. -/
def outCG : Image :=
  ⟨outRect imgClear, remapAt imgClear (getPalette imgClear) (getPalette imgGray)⟩

theorem c4_pass_through_witness :
    remapPixel (getPalette imgClear) (getPalette imgGray)
        (scaleOf (getPalette imgClear) (getPalette imgGray)) (imgClear.At 0 0) =
      some (imgClear.At 0 0) ∧
      (remapResult imgClear imgGray = some outCG →
        outCG.At 0 0 = imgClear.At 0 0) :=
  c4_pass_through imgClear imgGray outCG 0 0 rfl rfl (by decide)
    (Or.inr (by decide))

/-- C5: the output image is allocated with bounds (and hence dimensions)
identical to the source image's bounds, and every pixel position the remap
loop writes lies inside those bounds.  (Source bounds are zero-origin — the
invariant Go's PNG decoder guarantees for every decoded image.) -/
theorem c5_bounds_preserved (img palImg out : Image)
    (hx0 : img.bounds.minX = 0) (hy0 : img.bounds.minY = 0)
    (hx : 0 ≤ img.bounds.maxX) (hy : 0 ≤ img.bounds.maxY) :
    outRect img = img.bounds ∧ (outRect img).Dx = img.bounds.Dx ∧
      (outRect img).Dy = img.bounds.Dy ∧
      (∀ p ∈ pixelSeq img, inRect (outRect img) p.1 p.2) ∧
      (remapResult img palImg = some out → out.bounds = img.bounds) := by
  have h1 := outRect_of_zero_origin hx0 hy0 hx hy
  refine ⟨h1, by rw [h1], by rw [h1], fun p hp => ?_, fun hres => ?_⟩
  · rw [h1]
    exact mem_pixelSeq.mp hp
  · unfold remapResult at hres
    obtain ⟨hok, hout⟩ := remapImage_some hres
    rw [hout]
    exact h1

/-- The output image of the `img7` → `imgGray` run. -/
def out7G : Image :=
  ⟨outRect img7, remapAt img7 (getPalette img7) (getPalette imgGray)⟩

theorem c5_bounds_preserved_witness :
    outRect img7 = img7.bounds ∧ (outRect img7).Dx = img7.bounds.Dx ∧
      (outRect img7).Dy = img7.bounds.Dy ∧
      (∀ p ∈ pixelSeq img7, inRect (outRect img7) p.1 p.2) ∧
      (remapResult img7 imgGray = some out7G → out7G.bounds = img7.bounds) :=
  c5_bounds_preserved img7 imgGray out7G rfl rfl (by decide) (by decide)

/-- C6, counterexample: a fully transparent single-pixel source image yields
an empty old palette, yet the remap step does not fail at all — no error is
raised and no crash occurs.  Every lookup in the empty palette returns `-1`,
so the run completes (`isSome`) and silently writes a copy of the source
pixel. -/
theorem c6_no_failure_counterexample :
    getPalette imgClear = [] ∧
      (remapResult imgClear imgGray).isSome = true ∧
      obsAt (remapResult imgClear imgGray) 0 0 = some (imgClear.At 0 0) := by
  refine ⟨rfl, rfl, rfl⟩

/-- C6, amended: if the old palette is empty (source image has zero opaque
pixels), the ratio computation is a `float64` division by zero, but its
non-finite result is never consumed: every pixel color misses the empty
palette (`indexOf` returns `-1`), each pixel is copied through unchanged, and
the remap completes normally — there is no explicit empty-palette error, no
crash, and the output is a silent copy of the source image. -/
theorem c6_empty_palette_copies (img palImg out : Image) (x y : ℤ) (c : Color)
    (hemp : getPalette img = [])
    (hx0 : img.bounds.minX = 0) (hy0 : img.bounds.minY = 0)
    (hin : inRect img.bounds x y) :
    remapPixel (getPalette img) (getPalette palImg)
        (scaleOf (getPalette img) (getPalette palImg)) c = some c ∧
      (remapResult img palImg).isSome = true ∧
      (remapResult img palImg = some out → out.At x y = img.At x y) := by
  have copy : ∀ c' : Color, remapPixel (getPalette img) (getPalette palImg)
      (scaleOf (getPalette img) (getPalette palImg)) c' = some c' := by
    intro c'
    have hneg : indexOf c' (getPalette img) = -1 := by
      rw [hemp]
      rfl
    simp only [remapPixel, hneg, ite_true]
  have hok : remapOk img (getPalette img) (getPalette palImg) = true := by
    unfold remapOk
    rw [List.all_eq_true]
    intro p hp
    rw [copy (img.At p.1 p.2)]
    rfl
  refine ⟨copy c, ?_, fun hres => ?_⟩
  · unfold remapResult remapImage
    rw [if_pos hok]
    rfl
  · unfold remapResult at hres
    obtain ⟨_, hout⟩ := remapImage_some hres
    rw [hout]
    show remapAt img (getPalette img) (getPalette palImg) x y = img.At x y
    rw [remapAt_eq_getD hin (inRect_out_of_zero hx0 hy0 hin),
      copy (img.At x y)]
    rfl

theorem c6_empty_palette_copies_witness :
    remapPixel (getPalette imgClear) (getPalette imgGray)
        (scaleOf (getPalette imgClear) (getPalette imgGray)) cRed =
      some cRed ∧
      (remapResult imgClear imgGray).isSome = true ∧
      (remapResult imgClear imgGray = some outCG →
        outCG.At 0 0 = imgClear.At 0 0) :=
  c6_empty_palette_copies imgClear imgGray outCG 0 0 cRed rfl rfl rfl
    (by decide)

/-- C8: when the source and palette images are identical (and the source has
at least one opaque pixel), the `float64` palette-size ratio is exactly 1,
the remap never panics, and every opaque pixel of the output equals the
source pixel — the remap is the identity there. -/
theorem c8_identity (img out : Image) (x y : ℤ)
    (hx0 : img.bounds.minX = 0) (hy0 : img.bounds.minY = 0)
    (hne : getPalette img ≠ []) (hlen : (getPalette img).length < 2 ^ 53)
    (hin : inRect img.bounds x y) (hop : (img.At x y).a ≠ 0) :
    scaleOf (getPalette img) (getPalette img) = 1 ∧
      (remapResult img img).isSome = true ∧
      (remapResult img img = some out → out.At x y = img.At x y) := by
  have hs := scaleOf_self hne hlen
  have pix : ∀ u v : ℤ, inRect img.bounds u v →
      remapPixel (getPalette img) (getPalette img)
        (scaleOf (getPalette img) (getPalette img)) (img.At u v) =
        some (img.At u v) := by
    intro u v huv
    by_cases ht : (img.At u v).a = 0
    · have hneg : indexOf (img.At u v) (getPalette img) = -1 :=
        indexOf_of_not_mem (not_mem_getPalette_of_transparent ht)
      simp only [remapPixel, hneg, ite_true]
    · exact remapPixel_self hlen hs
        (mem_getPalette.mpr (mem_collectColors_of_alpha_ne huv ht))
  have hok : remapOk img (getPalette img) (getPalette img) = true := by
    unfold remapOk
    rw [List.all_eq_true]
    intro p hp
    rw [pix p.1 p.2 (mem_pixelSeq.mp hp)]
    rfl
  refine ⟨hs, ?_, fun hres => ?_⟩
  · unfold remapResult remapImage
    rw [if_pos hok]
    rfl
  · unfold remapResult at hres
    obtain ⟨_, hout⟩ := remapImage_some hres
    rw [hout]
    show remapAt img (getPalette img) (getPalette img) x y = img.At x y
    rw [remapAt_eq_getD hin (inRect_out_of_zero hx0 hy0 hin), pix x y hin]
    rfl

/-- The output image of the `imgBlack` → `imgBlack` run. -/
def outBB : Image :=
  ⟨outRect imgBlack, remapAt imgBlack (getPalette imgBlack) (getPalette imgBlack)⟩

theorem c8_identity_witness :
    scaleOf (getPalette imgBlack) (getPalette imgBlack) = 1 ∧
      (remapResult imgBlack imgBlack).isSome = true ∧
      (remapResult imgBlack imgBlack = some outBB →
        outBB.At 0 0 = imgBlack.At 0 0) :=
  c8_identity imgBlack outBB 0 0 rfl rfl (by decide) (by decide) (by decide)
    (by decide)
